import Mathlib

/- Shallow embedding of the content-protecting, chunked document-rewrite
   pipeline of translate_md.py (class MarkdownTranslator).

   Conventions of the embedding:
   * text is modeled as `List Char` (`Chars`);
   * each Python regular-expression pass (`re.sub`, `re.findall`) is modeled
     as an explicit left-to-right scanner with the exact matching semantics
     of the concrete pattern the source uses (leftmost match, greedy pieces
     with the backtracking the pattern admits, continue after each match);
   * the external rewrite service (call_api / translate_text's prompt and
     fence-stripping around it) is a function parameter `rw`;
   * Python floats are modeled as rationals;
   * Python division (which raises ZeroDivisionError) is `pyDiv` in `Except`. -/

abbrev Chars := List Char

/-- Backtick character (code-span and code-fence delimiter in the source). -/
def btick : Char := Char.ofNat 96

/-- Opening curly brace character (tracked by the inline-math scanner). -/
def obrace : Char := Char.ofNat 123

/-- Closing curly brace character (tracked by the inline-math scanner). -/
def cbrace : Char := Char.ofNat 125

/-- Boolean prefix test on char lists (Python `str.startswith` / the anchored
    part of a regex match attempt). -/
def isPrefB : Chars → Chars → Bool
  | [], _ => true
  | _ :: _, [] => false
  | a :: as, b :: bs => a = b && isPrefB as bs

/-- Substring test, Python's `needle in haystack`. -/
def containsSub (pat : Chars) : Chars → Bool
  | [] => pat.isEmpty
  | c :: rest => isPrefB pat (c :: rest) || containsSub pat rest

/-- Worker for `replaceAll`: `skip` counts characters that belong to an
    already-replaced occurrence and are dropped. -/
def replaceGo (pat repl : Chars) : Chars → Nat → Chars
  | [], _ => []
  | _ :: rest, skip + 1 => replaceGo pat repl rest skip
  | c :: rest, 0 =>
    if isPrefB pat (c :: rest) then repl ++ replaceGo pat repl rest (pat.length - 1)
    else c :: replaceGo pat repl rest 0

/-- Python `str.replace`: replace every non-overlapping occurrence of `pat`,
    left to right, replacements not rescanned (all `pat`s used are nonempty). -/
def replaceAll (s pat repl : Chars) : Chars := replaceGo pat repl s 0

/-- Python `str.split('\n')`. -/
def splitNl : Chars → List Chars
  | [] => [[]]
  | c :: rest =>
    if c = '\n' then [] :: splitNl rest
    else
      match splitNl rest with
      | [] => [[c]]
      | p :: ps => (c :: p) :: ps

/-- Python `str.split('\n\n')` (used by the paragraph check of the validator). -/
def splitPar : Chars → List Chars
  | '\n' :: '\n' :: rest => [] :: splitPar rest
  | c :: rest =>
    match splitPar rest with
    | [] => [[c]]
    | p :: ps => (c :: p) :: ps
  | [] => [[]]

/-- Python `'\n'.join`. -/
def joinNl : List Chars → Chars
  | [] => []
  | [x] => x
  | x :: xs => x ++ '\n' :: joinNl xs

/-- Python whitespace for `str.strip` truthiness tests (ASCII part; the
    claims do not depend on the exotic Unicode space characters). -/
def isPyWS (c : Char) : Bool :=
  c = ' ' || c = '\t' || c = '\n' || c = '\r' || c = Char.ofNat 11 || c = Char.ofNat 12

/-- Truthiness of Python `s.strip()`: some non-whitespace character exists. -/
def hasNonWS (s : Chars) : Bool := s.any (fun c => !(isPyWS c))

/-- Lexicographic strict order on char lists by code point, Python's `<`
    on strings. -/
def strLtB : Chars → Chars → Bool
  | [], [] => false
  | [], _ :: _ => true
  | _ :: _, [] => false
  | a :: as, b :: bs => a < b || (a = b && strLtB as bs)

/-- Little-endian decimal digits of `n` (fuel-structured so that it reduces
    in the kernel; the fuel `n + 1` always suffices). -/
def natDigitsLEAux : Nat → Nat → List Nat
  | 0, n => [n]
  | f + 1, n => if n < 10 then [n] else n % 10 :: natDigitsLEAux f (n / 10)

/-- Little-endian decimal digits of `n`. -/
def natDigitsLE (n : Nat) : List Nat := natDigitsLEAux n n

/-- Decimal rendering of a natural number, Python `str(n)` for `n ≥ 0`. -/
def natRepr (n : Nat) : Chars := ((natDigitsLE n).reverse).map Nat.digitChar

/-- Decimal parsing of a digit string, Python `int(s)` on digit-only `s`. -/
def parseNat (cs : Chars) : Nat := cs.foldl (fun a c => a * 10 + (c.toNat - 48)) 0

/-- Python format `f"{n:04d}"` for `n ≥ 0`: pad with zeros to width 4. -/
def pad4 (n : Nat) : Chars := List.replicate (4 - (natRepr n).length) '0' ++ natRepr n

/-- The value of a little-endian digit list (proof tool for `natRepr`). -/
def valLE : List Nat → Nat
  | [] => 0
  | d :: ds => d + 10 * valLE ds

/-- Record for one protected span (class ProtectedBlock of the source). -/
structure ProtectedBlock where
  placeholder : Chars
  original : Chars
  block_type : String
deriving DecidableEq, Repr

/-- Placeholder text, Python `f"<<<{kind}_{index:04d}>>>"`. -/
def mkPh (kind : Chars) (i : Nat) : Chars :=
  '<' :: '<' :: '<' :: (kind ++ '_' :: (pad4 i ++ ['>', '>', '>']))

/-- Scan for the closing `$` of an inline formula, tracking the escape flag
    and the brace depth exactly as the while-loop of
    `protect_inline_math_formulas` does: a backslash skips the next character,
    braces move the depth, and a `$` closes only at depth zero.  Returns the
    consumed characters (closing `$` included) and the remainder. -/
def findCloseIM : Chars → Int → Option (Chars × Chars)
  | '\\' :: c :: rest, d =>
    (findCloseIM rest d).map (fun p => ('\\' :: c :: p.1, p.2))
  | c :: rest, d =>
    if c = obrace then (findCloseIM rest (d + 1)).map (fun p => (c :: p.1, p.2))
    else if c = cbrace then (findCloseIM rest (d - 1)).map (fun p => (c :: p.1, p.2))
    else if c = '$' then
      if d = 0 then some (['$'], rest)
      else (findCloseIM rest d).map (fun p => (c :: p.1, p.2))
    else (findCloseIM rest d).map (fun p => (c :: p.1, p.2))
  | [], _ => none

/-- State machine of `protect_inline_math_formulas`: `skip` counts characters
    of an already-protected formula still to drop, `k` is the per-kind
    inline-math index.  On `$$` one `$` is emitted and scanning resumes at the
    second `$`; on an opening `$` with no balanced close the text from the `$`
    to the end is kept verbatim and no span is recorded (both exactly as the
    source loop behaves). -/
def scanIM : Chars → Nat → Nat → Chars × List ProtectedBlock
  | [], _, _ => ([], [])
  | _ :: rest, skip + 1, k => scanIM rest skip k
  | c :: rest, 0, k =>
    if c = '$' then
      if rest.head? = some '$' then
        let p := scanIM rest 0 k
        ('$' :: p.1, p.2)
      else
        match findCloseIM rest 0 with
        | some (content, _) =>
          let p := scanIM rest content.length (k + 1)
          (mkPh "INLINE_MATH".data k ++ p.1,
           ⟨mkPh "INLINE_MATH".data k, '$' :: content, "inline_math"⟩ :: p.2)
        | none => ('$' :: rest, [])
    else
      let p := scanIM rest 0 k
      (c :: p.1, p.2)

/-- Method `protect_inline_math_formulas`: the inline-math index starts at the
    number of inline-math blocks already present, and the new spans are
    appended to the given list. -/
def protect_inline_math_formulas (text : Chars) (protected_blocks : List ProtectedBlock) :
    Chars × List ProtectedBlock :=
  let k := (protected_blocks.filter (fun b => b.block_type = "inline_math")).length
  let p := scanIM text 0 k
  (p.1, protected_blocks ++ p.2)

/-- Earliest occurrence of a triple backtick (the lazy close of the pattern
    for fenced code blocks): characters before it, and the remainder after it. -/
def findFence : Chars → Option (Chars × Chars)
  | [] => none
  | a :: rest =>
    match rest with
    | b :: c :: r =>
      if a = btick ∧ b = btick ∧ c = btick then some ([], r)
      else (findFence rest).map (fun p => (a :: p.1, p.2))
    | _ => (findFence rest).map (fun p => (a :: p.1, p.2))

/-- Earliest occurrence of a double dollar (the lazy close of the pattern for
    block math). -/
def findDD : Chars → Option (Chars × Chars)
  | [] => none
  | a :: rest =>
    match rest with
    | b :: _ =>
      if a = '$' ∧ b = '$' then some ([], rest.tail)
      else (findDD rest).map (fun p => (a :: p.1, p.2))
    | _ => (findDD rest).map (fun p => (a :: p.1, p.2))

/-- Match attempt for the fenced-code-block pattern (triple backtick, lazy
    any-characters, triple backtick) at the current position; returns the
    matched text. -/
def tryCodeBlock (cs : Chars) : Option Chars :=
  match cs with
  | a :: b :: c :: r =>
    if a = btick ∧ b = btick ∧ c = btick then
      (findFence r).map (fun p => [btick, btick, btick] ++ p.1 ++ [btick, btick, btick])
    else none
  | _ => none

/-- Match attempt for the inline-code pattern (backtick, one or more
    non-backticks, backtick) at the current position. -/
def tryInlineCode (cs : Chars) : Option Chars :=
  match cs with
  | c :: r =>
    if c = btick then
      let content := r.takeWhile (fun x => x ≠ btick)
      if content ≠ [] ∧ r.drop content.length ≠ [] then
        some (btick :: (content ++ [btick]))
      else none
    else none
  | [] => none

/-- Match attempt for the block-math pattern (double dollar, lazy
    any-characters, double dollar) at the current position. -/
def tryMathBlock (cs : Chars) : Option Chars :=
  match cs with
  | a :: b :: r =>
    if a = '$' ∧ b = '$' then
      (findDD r).map (fun p => '$' :: '$' :: (p.1 ++ ['$', '$']))
    else none
  | _ => none

/-- Match attempt for the image pattern: bang, bracketed alt text without a
    closing bracket inside, then a parenthesized nonempty target without a
    closing parenthesis inside. -/
def tryImage (cs : Chars) : Option Chars :=
  match cs with
  | a :: b :: r =>
    if a = '!' ∧ b = '[' then
      let alt := r.takeWhile (fun x => x ≠ ']')
      match r.drop alt.length with
      | ']' :: '(' :: r2 =>
        let url := r2.takeWhile (fun x => x ≠ ')')
        if url ≠ [] ∧ r2.drop url.length ≠ [] then
          some ('!' :: '[' :: (alt ++ ']' :: '(' :: (url ++ [')'])))
        else none
      | _ => none
    else none
  | _ => none

/-- Match attempt for the raw-markup pattern (a less-than sign, one or more
    characters that are not a greater-than sign, a greater-than sign). -/
def tryHtml (cs : Chars) : Option Chars :=
  match cs with
  | c :: r =>
    if c = '<' then
      let inner := r.takeWhile (fun x => x ≠ '>')
      if inner ≠ [] ∧ r.drop inner.length ≠ [] then
        some ('<' :: (inner ++ ['>']))
      else none
    else none
  | [] => none

/-- Generic `re.sub` scanner for one protection pass: at each position the
    pass attempts its pattern; on a match the placeholder for the running
    global index `k` is emitted, a block is recorded and the matched
    characters are dropped (`skip`), otherwise one character is copied.
    Returns the rewritten text, the blocks in match order and the final index. -/
def subScan (tryM : Chars → Option Chars) (kind : Chars) (bt : String) :
    Chars → Nat → Nat → Chars × List ProtectedBlock × Nat
  | [], _, k => ([], [], k)
  | _ :: rest, skip + 1, k => subScan tryM kind bt rest skip k
  | c :: rest, 0, k =>
    match tryM (c :: rest) with
    | some matched =>
      let p := subScan tryM kind bt rest (matched.length - 1) (k + 1)
      (mkPh kind k ++ p.1, ⟨mkPh kind k, matched, bt⟩ :: p.2.1, p.2.2)
    | none =>
      let p := subScan tryM kind bt rest 0 k
      (c :: p.1, p.2.1, p.2.2)

/- Method `protect_blocks` runs six passes in source order, rebinding `text`
   after each; the successive states are named stage by stage.  The global
   index `protected_index` threads through passes 1, 2, 3, 5, 6; the
   inline-math pass starts its own counter from the number of inline-math
   blocks already collected. -/

/-- Pass 1 of `protect_blocks`: fenced code blocks. -/
def protectP1 (text : Chars) : Chars × List ProtectedBlock × Nat :=
  subScan tryCodeBlock "CODE_BLOCK".data "code_block" text 0 0

/-- Pass 2 of `protect_blocks`: inline code. -/
def protectP2 (text : Chars) : Chars × List ProtectedBlock × Nat :=
  subScan tryInlineCode "INLINE_CODE".data "inline_code" (protectP1 text).1 0
    (protectP1 text).2.2

/-- Pass 3 of `protect_blocks`: block math. -/
def protectP3 (text : Chars) : Chars × List ProtectedBlock × Nat :=
  subScan tryMathBlock "MATH_BLOCK".data "math_block" (protectP2 text).1 0
    (protectP2 text).2.2

/-- Blocks collected by passes 1 to 3, in order. -/
def protectSoFar (text : Chars) : List ProtectedBlock :=
  (protectP1 text).2.1 ++ (protectP2 text).2.1 ++ (protectP3 text).2.1

/-- Pass 4 of `protect_blocks`: inline math via
    `protect_inline_math_formulas`, whose index starts at the number of
    inline-math blocks already in the list. -/
def protectP4 (text : Chars) : Chars × List ProtectedBlock :=
  scanIM (protectP3 text).1 0
    (((protectSoFar text).filter (fun b => b.block_type = "inline_math")).length)

/-- Pass 5 of `protect_blocks`: image references (the global index continues
    from pass 3, since the inline-math pass does not touch it). -/
def protectP5 (text : Chars) : Chars × List ProtectedBlock × Nat :=
  subScan tryImage "IMAGE".data "image" (protectP4 text).1 0 (protectP3 text).2.2

/-- Pass 6 of `protect_blocks`: raw markup tags. -/
def protectP6 (text : Chars) : Chars × List ProtectedBlock × Nat :=
  subScan tryHtml "HTML".data "html" (protectP5 text).1 0 (protectP5 text).2.2

/-- Method `protect_blocks`: the rewritten text after all six passes and the
    span list in collection order. -/
def protect_blocks (text : Chars) : Chars × List ProtectedBlock :=
  ((protectP6 text).1,
   protectSoFar text ++ (protectP4 text).2 ++ (protectP5 text).2.1 ++ (protectP6 text).2.1)

/-- Insertion step of the stable descending sort of `restore_blocks`
    (Python `sorted(blocks, key=placeholder, reverse=True)`): a block passes
    every block with a strictly greater key and stops before the first block
    whose key is not greater, so equal keys keep their original order. -/
def insertDesc (b : ProtectedBlock) : List ProtectedBlock → List ProtectedBlock
  | [] => [b]
  | x :: xs =>
    if strLtB b.placeholder x.placeholder then x :: insertDesc b xs
    else b :: x :: xs

/-- Stable sort by placeholder, descending (semantics of Python
    `sorted(..., key=lambda x: x.placeholder, reverse=True)`). -/
def sortBlocksDesc : List ProtectedBlock → List ProtectedBlock
  | [] => []
  | b :: bs => insertDesc b (sortBlocksDesc bs)

/-- Method `restore_blocks`: in descending placeholder order, replace each
    placeholder that occurs in the text by its original content. -/
def restore_blocks (text : Chars) (protected_blocks : List ProtectedBlock) : Chars :=
  (sortBlocksDesc protected_blocks).foldl
    (fun t b => if containsSub b.placeholder t then replaceAll t b.placeholder b.original else t)
    text

/-- Character class of the kind part of a placeholder pattern: ASCII capital
    letters and the underscore. -/
def isKindChar (c : Char) : Bool := ('A' ≤ c && c ≤ 'Z') || c = '_'

/-- First block with the given placeholder, Python's linear search in
    `fix_broken_placeholders`. -/
def lookupBlock (bs : List ProtectedBlock) (ph : Chars) : Option Chars :=
  (bs.find? (fun b => b.placeholder = ph)).map (fun b => b.original)

/-- Match attempt at the current position for the repair pattern of
    `fix_broken_placeholders` (triple less-than, a kind run that must end in
    an underscore, one to four digits greedily, zero to two greater-thans
    greedily).  Returns the match length and the replacement: the original of
    the first block whose placeholder rebuilds from the recovered kind and
    index, or the matched text itself when no block matches. -/
def tryBroken (bs : List ProtectedBlock) (cs : Chars) : Option (Nat × Chars) :=
  match cs with
  | '<' :: '<' :: '<' :: r =>
    let run := r.takeWhile isKindChar
    if 2 ≤ run.length ∧ run.getLast? = some '_' then
      let afterRun := r.drop run.length
      let digits := (afterRun.takeWhile Char.isDigit).take 4
      if digits = [] then none
      else
        let gts := ((afterRun.drop digits.length).takeWhile (fun c => c = '>')).take 2
        let matched := '<' :: '<' :: '<' :: (run ++ digits ++ gts)
        let expected := mkPh run.dropLast (parseNat digits)
        match lookupBlock bs expected with
        | some orig => some (matched.length, orig)
        | none => some (matched.length, matched)
    else none
  | _ => none

/-- Scanner of `fix_broken_placeholders` over the whole text. -/
def fixScan (bs : List ProtectedBlock) : Chars → Nat → Chars
  | [], _ => []
  | _ :: rest, skip + 1 => fixScan bs rest skip
  | c :: rest, 0 =>
    match tryBroken bs (c :: rest) with
    | some (len, repl) => repl ++ fixScan bs rest (len - 1)
    | none => c :: fixScan bs rest 0

/-- Method `fix_broken_placeholders`. -/
def fix_broken_placeholders (text : Chars) (all_blocks : List ProtectedBlock) : Chars :=
  fixScan all_blocks text 0

/-- Match attempt for the complete-placeholder pattern (triple less-than,
    kind run ending in an underscore, exactly four digits, triple
    greater-than); returns the match length. -/
def tryComplete (cs : Chars) : Option Nat :=
  match cs with
  | '<' :: '<' :: '<' :: r =>
    let run := r.takeWhile isKindChar
    if 2 ≤ run.length ∧ run.getLast? = some '_' then
      match r.drop run.length with
      | d1 :: d2 :: d3 :: d4 :: '>' :: '>' :: '>' :: _ =>
        if d1.isDigit ∧ d2.isDigit ∧ d3.isDigit ∧ d4.isDigit then
          some (3 + run.length + 7)
        else none
      | _ => none
    else none
  | _ => none

/-- Match attempt for the broken-placeholder detection pattern (one to four
    digits, then one or two greater-thans not followed by another, which is
    the negative lookahead of the source pattern); returns the match length. -/
def tryBrokenDetect (cs : Chars) : Option Nat :=
  match cs with
  | '<' :: '<' :: '<' :: r =>
    let run := r.takeWhile isKindChar
    if 2 ≤ run.length ∧ run.getLast? = some '_' then
      let digits := (r.drop run.length).takeWhile Char.isDigit
      if 1 ≤ digits.length ∧ digits.length ≤ 4 then
        let gts := ((r.drop run.length).drop digits.length).takeWhile (fun c => c = '>')
        if 1 ≤ gts.length ∧ gts.length ≤ 2 then
          some (3 + run.length + digits.length + gts.length)
        else none
      else none
    else none
  | _ => none

/-- Generic counting scanner for `re.findall(pattern, text)` followed by
    `len`: leftmost non-overlapping matches. -/
def countScan (tryM : Chars → Option Nat) : Chars → Nat → Nat
  | [], _ => 0
  | _ :: rest, skip + 1 => countScan tryM rest skip
  | c :: rest, 0 =>
    match tryM (c :: rest) with
    | some len => 1 + countScan tryM rest (len - 1)
    | none => countScan tryM rest 0

/-- Number of complete placeholders in a text. -/
def countPh (t : Chars) : Nat := countScan tryComplete t 0

/-- Number of broken placeholders (detection pattern with lookahead). -/
def countBroken (t : Chars) : Nat := countScan tryBrokenDetect t 0

/-- Issue entries of `validate_translation_completeness` (the source stores
    formatted message strings; the embedding keeps the data each message
    carries, since only the presence and count of issues is specified). -/
inductive VIssue where
  | placeholderMismatch (original translated : Nat)
  | paragraphDiff (original translated diff : Nat)
  | lineDiff (original translated diff : Nat)
  | lengthAnomaly ( ratio : Rat)
deriving DecidableEq, Repr

/-- Result dictionary of `validate_translation_completeness`. -/
structure VResult where
  is_valid : Bool
  issues : List VIssue
deriving DecidableEq, Repr

/-- Python division on rationals: raises ZeroDivisionError on a zero
    denominator (floats are modeled as rationals throughout). -/
def pyDiv (a b : Rat) : Except String Rat :=
  if b = 0 then .error "ZeroDivisionError" else .ok (a / b)

/-- Distance of two naturals, Python `abs(a - b)` on ints. -/
def natDist (a b : Nat) : Nat := if a ≤ b then b - a else a - b

/-- Method `validate_translation_completeness`: the four advisory checks in
    source order (placeholder counts; paragraph counts with the 20 percent
    threshold; non-blank line counts with the 15 percent threshold; the
    length ratio, computed only when the original is nonempty, against the
    0.3 to 1.5 window).  The float thresholds of the source are the
    corresponding rationals. -/
def validate_translation_completeness (original translated : Chars) :
    Except String VResult :=
  let op := countPh original
  let tp := countPh translated
  let st1 : Bool × List VIssue :=
    if op ≠ tp then (false, [.placeholderMismatch op tp]) else (true, [])
  let opar := ((splitPar original).filter hasNonWS).length
  let tpar := ((splitPar translated).filter hasNonWS).length
  let st2 : Bool × List VIssue :=
    if opar ≠ tpar then
      let d := natDist opar tpar
      (if (d : Rat) > (opar : Rat) * (2 / 10) then false else st1.1,
       st1.2 ++ [.paragraphDiff opar tpar d])
    else st1
  let oln := ((splitNl original).filter hasNonWS).length
  let tln := ((splitNl translated).filter hasNonWS).length
  let st3 : Bool × List VIssue :=
    if oln ≠ tln then
      let d := natDist oln tln
      (if (d : Rat) > (oln : Rat) * (15 / 100) then false else st2.1,
       st2.2 ++ [.lineDiff oln tln d])
    else st2
  match (if 0 < original.length
         then pyDiv (translated.length : Rat) (original.length : Rat)
         else .ok 0) with
  | .error e => .error e
  | .ok ratio =>
    if ratio < 3 / 10 ∨ ratio > 3 / 2 then
      .ok ⟨false, st3.2 ++ [.lengthAnomaly ratio]⟩
    else .ok ⟨st3.1, st3.2⟩

/-- Method `get_context_from_previous_chunk`: the last `num_lines` non-blank
    lines of the previous chunk (the slice `lines[-num_lines:]` of the
    source, for the positive `num_lines` the source passes). -/
def get_context_from_previous_chunk (previous_chunk : Chars) (num_lines : Nat) : Chars :=
  if previous_chunk = [] then []
  else
    let lines := (splitNl previous_chunk).filter hasNonWS
    if lines = [] then []
    else joinNl (lines.drop (lines.length - num_lines))

/-- Line-accumulating chunk loop of `translate_large_document`: add each line
    to the current chunk unless that would push the accumulated size over the
    limit while the current chunk is nonempty, in which case the chunk is
    closed and the line starts a new one (the source's heading/blank/rule
    test chooses between two identical branches there, so it does not change
    the result), and flush the trailing chunk. -/
def chunkLoop (limit : Nat) : List Chars → List Chars → Nat → List Chars
  | [], cur, _ => if cur = [] then [] else [joinNl cur]
  | line :: rest, cur, size =>
    if size + line.length > limit ∧ cur ≠ [] then
      joinNl cur :: chunkLoop limit rest [line] line.length
    else
      chunkLoop limit rest (cur ++ [line]) (size + line.length)

/-- Chunking step of `translate_large_document`: split the protected text on
    newlines and run the loop with the source's size limit of 6000. -/
def chunkLines (protected_text : Chars) : List Chars :=
  chunkLoop 6000 (splitNl protected_text) [] 0

/-- Method `translate_text`: blank text is returned untouched; otherwise the
    rewrite service is consulted.  The parameter `rw` stands for the external
    call (prompt construction, `call_api` and the fence-stripping of the
    answer), applied to the text and the context. -/
def translate_text (rw : Chars → Chars → Chars) (text context : Chars) : Chars :=
  if hasNonWS text then rw text context else text

/-- Per-chunk loop of the large-document path: the context is taken from the
    previous chunk's original text, the blocks whose placeholder occurs in
    the chunk are restored after its rewrite, and each `translate_text` call
    is recorded as a pair of text and context. -/
def processChunks (rw : Chars → Chars → Chars) (all_blocks : List ProtectedBlock) :
    Option Chars → List Chars → List Chars × List (Chars × Chars)
  | _, [] => ([], [])
  | prev, chunk :: rest =>
    let context := match prev with
      | none => []
      | some p => get_context_from_previous_chunk p 3
    let chunk_blocks := all_blocks.filter (fun b => containsSub b.placeholder chunk)
    let tc := translate_text rw chunk context
    let tc := if chunk_blocks ≠ [] then restore_blocks tc chunk_blocks else tc
    let p := processChunks rw all_blocks (some chunk) rest
    (tc :: p.1, (chunk, context) :: p.2)

/-- Method `translate_large_document`, parameterized by the rewrite service
    `rw`.  Besides the final text it returns the list of `translate_text`
    calls made, each as a pair of the text sent and the context sent, in
    order (the source makes these calls for their effect; the list makes the
    call pattern a provable observable). -/
def translate_large_document (rw : Chars → Chars → Chars) (text : Chars) :
    Chars × List (Chars × Chars) :=
  let pr := protect_blocks text
  let protected_text := pr.1
  let all_blocks := pr.2
  if protected_text.length < 8000 then
    let translated := translate_text rw protected_text []
    let final := restore_blocks translated all_blocks
    let final :=
      if countBroken final ≠ 0 then fix_broken_placeholders final all_blocks else final
    (final, [(protected_text, [])])
  else
    let chunks := chunkLines protected_text
    let p := processChunks rw all_blocks none chunks
    let full := joinNl p.1
    let full := if countBroken full ≠ 0 then fix_broken_placeholders full all_blocks else full
    let full := if countPh full ≠ 0 then restore_blocks full all_blocks else full
    (full, p.2)

/-- Number of positions of `s` at which `pat` occurs (used to state that no
    placeholder is split across chunk boundaries: a split occurrence would be
    counted in the whole text but in no chunk). -/
def countPos (pat : Chars) : Chars → Nat
  | [] => 0
  | c :: rest => (if isPrefB pat (c :: rest) then 1 else 0) + countPos pat rest

/- Lemmas about the decimal rendering used by the placeholder format. -/

lemma natDigitsLEAux_lt10 : ∀ f n, n ≤ f → ∀ d ∈ natDigitsLEAux f n, d < 10 := by
  intro f
  induction f with
  | zero =>
    intro n hn d hd
    simp only [natDigitsLEAux, List.mem_singleton] at hd
    omega
  | succ f ih =>
    intro n hn d hd
    simp only [natDigitsLEAux] at hd
    by_cases h : n < 10
    · simp [h] at hd; omega
    · simp [h] at hd
      rcases hd with h1 | h2
      · omega
      · exact ih (n / 10) (by omega) d h2

lemma valLE_natDigitsLEAux : ∀ f n, n ≤ f → valLE (natDigitsLEAux f n) = n := by
  intro f
  induction f with
  | zero => intro n hn; simp only [natDigitsLEAux, valLE]; omega
  | succ f ih =>
    intro n hn
    simp only [natDigitsLEAux]
    by_cases h : n < 10
    · simp [h, valLE]
    · simp only [h, if_false, valLE]
      rw [ih (n / 10) (by omega)]
      omega

lemma natDigitsLE_lt10 (n : Nat) : ∀ d ∈ natDigitsLE n, d < 10 :=
  natDigitsLEAux_lt10 n n (Nat.le_refl n)

lemma valLE_natDigitsLE (n : Nat) : valLE (natDigitsLE n) = n :=
  valLE_natDigitsLEAux n n (Nat.le_refl n)

lemma digitChar_sub48 : ∀ d, d < 10 → (Nat.digitChar d).toNat - 48 = d := by
  intro d hd
  interval_cases d <;> rfl

lemma parseNat_concat (xs : Chars) (c : Char) :
    parseNat (xs ++ [c]) = parseNat xs * 10 + (c.toNat - 48) := by
  simp [parseNat, List.foldl_append]

lemma parseNat_rev_map (L : List Nat) (hL : ∀ d ∈ L, d < 10) :
    parseNat ((L.map Nat.digitChar).reverse) = valLE L := by
  induction L with
  | nil => rfl
  | cons d ds ih =>
    simp only [List.map_cons, List.reverse_cons]
    rw [parseNat_concat, ih (fun x hx => hL x (List.mem_cons_of_mem d hx)),
      digitChar_sub48 d (hL d (List.mem_cons_self d ds))]
    simp [valLE]; ring

lemma parseNat_natRepr (n : Nat) : parseNat (natRepr n) = n := by
  have : natRepr n = ((natDigitsLE n).map Nat.digitChar).reverse := by
    simp [natRepr, List.map_reverse]
  rw [this, parseNat_rev_map _ (natDigitsLE_lt10 n), valLE_natDigitsLE]

lemma parseNat_replicate_zero (k : Nat) (cs : Chars) :
    parseNat (List.replicate k '0' ++ cs) = parseNat cs := by
  induction k with
  | zero => rfl
  | succ k ih => simpa [parseNat, List.replicate_succ] using ih

lemma parseNat_pad4 (n : Nat) : parseNat (pad4 n) = n := by
  rw [pad4, parseNat_replicate_zero, parseNat_natRepr]

lemma pad4_injective : Function.Injective pad4 := by
  intro m n h
  have := congrArg parseNat h
  rwa [parseNat_pad4, parseNat_pad4] at this

lemma digitChar_isDigit : ∀ d, d < 10 → (Nat.digitChar d).isDigit = true := by
  intro d hd
  interval_cases d <;> rfl

lemma pad4_isDigit (n : Nat) : ∀ c ∈ pad4 n, c.isDigit = true := by
  intro c hc
  rcases List.mem_append.1 hc with h | h
  · rw [List.eq_of_mem_replicate h]; rfl
  · rw [natRepr] at h
    rcases List.mem_map.1 h with ⟨d, hd, rfl⟩
    exact digitChar_isDigit d (natDigitsLE_lt10 n d (List.mem_reverse.1 hd))

lemma natRepr_ne_nil (n : Nat) : natRepr n ≠ [] := by
  have : natDigitsLE n ≠ [] := by
    rw [natDigitsLE]
    cases n with
    | zero => simp [natDigitsLEAux]
    | succ m =>
      simp only [natDigitsLEAux]
      split <;> simp
  simp [natRepr, this]

lemma pad4_ne_nil (n : Nat) : pad4 n ≠ [] := by
  simp [pad4, natRepr_ne_nil]

/- Lemmas about the placeholder text `mkPh`. -/

lemma takeWhile_app_stop {p : Char → Bool} :
    ∀ xs y ys, (∀ x ∈ xs, p x = true) → p y = false →
      List.takeWhile p (xs ++ y :: ys) = xs := by
  intro xs
  induction xs with
  | nil => intro y ys _ hy; simp [List.takeWhile_cons, hy]
  | cons a as ih =>
    intro y ys hall hy
    have ha : p a = true := hall a (List.mem_cons_self a as)
    simp only [List.cons_append, List.takeWhile_cons, ha, if_true]
    rw [ih y ys (fun x hx => hall x (List.mem_cons_of_mem a hx)) hy]

lemma isDigit_nat (c : Char) (h : c.isDigit = true) :
    48 ≤ c.val.toNat ∧ c.val.toNat ≤ 57 := by
  simp only [Char.isDigit, ge_iff_le, Bool.and_eq_true, decide_eq_true_eq] at h
  exact ⟨h.1, h.2⟩

lemma isKindChar_of_digit (c : Char) (h : c.isDigit = true) : isKindChar c = false := by
  have hn := isDigit_nat c h
  simp only [isKindChar, Bool.or_eq_false_iff, Bool.and_eq_false_iff,
    decide_eq_false_iff_not]
  constructor
  · left
    intro hle
    have h2 : ('A' : Char).val.toNat ≤ c.val.toNat := hle
    have h3 : ('A' : Char).val.toNat = 65 := by decide
    omega
  · intro he
    rw [he] at hn
    have : ('_' : Char).val.toNat = 95 := by decide
    omega

lemma newline_not_digit : ('\n').isDigit = false := by decide

lemma mkPh_reshape (K : Chars) (i : Nat) :
    mkPh K i =
      '<' :: '<' :: '<' :: ((K ++ ['_']) ++ (pad4 i ++ ['>', '>', '>'])) := by
  simp [mkPh]

lemma run_of_kind_digits (K : Chars) (i : Nat) (hK : ∀ c ∈ K, isKindChar c = true) :
    List.takeWhile isKindChar ((K ++ ['_']) ++ (pad4 i ++ ['>', '>', '>'])) =
      K ++ ['_'] := by
  obtain ⟨d, ds, hd⟩ := List.exists_cons_of_ne_nil (pad4_ne_nil i)
  have hdd : d.isDigit = true := pad4_isDigit i d (by rw [hd]; exact List.mem_cons_self d ds)
  rw [hd, List.cons_append]
  refine takeWhile_app_stop _ d _ ?_ (isKindChar_of_digit d hdd)
  intro x hx
  rcases List.mem_append.1 hx with h | h
  · exact hK x h
  · rw [List.mem_singleton.1 h]; rfl

lemma digits_of_pad4 (i : Nat) :
    List.takeWhile Char.isDigit (pad4 i ++ ['>', '>', '>']) = pad4 i := by
  have : pad4 i ++ ['>', '>', '>'] = pad4 i ++ '>' :: ['>', '>'] := rfl
  rw [this]
  exact takeWhile_app_stop _ '>' _ (pad4_isDigit i) (by decide)

lemma mkPh_inj_on (K1 K2 : Chars) (i j : Nat)
    (h1 : ∀ c ∈ K1, isKindChar c = true) (h2 : ∀ c ∈ K2, isKindChar c = true)
    (h : mkPh K1 i = mkPh K2 j) : K1 = K2 ∧ i = j := by
  rw [mkPh_reshape, mkPh_reshape] at h
  have e : (K1 ++ ['_']) ++ (pad4 i ++ ['>', '>', '>']) =
      (K2 ++ ['_']) ++ (pad4 j ++ ['>', '>', '>']) := by
    injection h with _ h'
    injection h' with _ h''
    injection h'' with _ h'''
  have hrun : K1 ++ ['_'] = K2 ++ ['_'] := by
    have := congrArg (List.takeWhile isKindChar) e
    rwa [run_of_kind_digits K1 i h1, run_of_kind_digits K2 j h2] at this
  have hK : K1 = K2 := List.append_cancel_right hrun
  subst hK
  have e2 : pad4 i ++ ['>', '>', '>'] = pad4 j ++ ['>', '>', '>'] :=
    List.append_cancel_left e
  exact ⟨rfl, pad4_injective (List.append_cancel_right e2)⟩

lemma mkPh_injective (K : Chars) (hK : ∀ c ∈ K, isKindChar c = true) :
    Function.Injective (mkPh K) := by
  intro i j h
  exact (mkPh_inj_on K K i j hK hK h).2

lemma mkPh_ne_nil (K : Chars) (i : Nat) : mkPh K i ≠ [] := by
  simp [mkPh]

lemma newline_not_mem_mkPh (K : Chars) (i : Nat)
    (hK : ∀ c ∈ K, isKindChar c = true) : '\n' ∉ mkPh K i := by
  intro h
  rw [mkPh] at h
  rcases List.mem_cons.1 h with he | h
  · exact absurd he (by decide)
  rcases List.mem_cons.1 h with he | h
  · exact absurd he (by decide)
  rcases List.mem_cons.1 h with he | h
  · exact absurd he (by decide)
  rcases List.mem_append.1 h with hk | h
  · exact absurd (hK _ hk) (by decide)
  rcases List.mem_cons.1 h with he | h
  · exact absurd he (by decide)
  rcases List.mem_append.1 h with hp | h
  · exact absurd (pad4_isDigit i _ hp) (by decide)
  · exact absurd h (by decide)

/- Shape of the span list produced by one protection pass: the placeholders
   are exactly the placeholders of that pass's kind over a contiguous index
   range starting at the incoming index. -/

lemma subScan_placeholders (tryM : Chars → Option Chars) (kind : Chars) (bt : String) :
    ∀ cs skip k, ∃ m,
      ((subScan tryM kind bt cs skip k).2.1).map (fun b => b.placeholder) =
        (List.range' k m).map (mkPh kind) := by
  intro cs
  induction cs with
  | nil => intro skip k; exact ⟨0, by simp [subScan]⟩
  | cons c rest ih =>
    intro skip k
    cases skip with
    | succ s =>
      obtain ⟨m, hm⟩ := ih s k
      exact ⟨m, by simpa [subScan] using hm⟩
    | zero =>
      cases h : tryM (c :: rest) with
      | some matched =>
        obtain ⟨m, hm⟩ := ih (matched.length - 1) (k + 1)
        refine ⟨m + 1, ?_⟩
        simp only [subScan, h, List.map_cons, List.range'_succ, hm]
      | none =>
        obtain ⟨m, hm⟩ := ih 0 k
        exact ⟨m, by simpa [subScan, h] using hm⟩

lemma scanIM_placeholders :
    ∀ cs skip k, ∃ m,
      ((scanIM cs skip k).2).map (fun b => b.placeholder) =
        (List.range' k m).map (mkPh "INLINE_MATH".data) := by
  intro cs
  induction cs with
  | nil => intro skip k; exact ⟨0, by simp [scanIM]⟩
  | cons c rest ih =>
    intro skip k
    cases skip with
    | succ s =>
      obtain ⟨m, hm⟩ := ih s k
      exact ⟨m, by simpa [scanIM] using hm⟩
    | zero =>
      by_cases hc : c = '$'
      · by_cases hr : rest.head? = some '$'
        · obtain ⟨m, hm⟩ := ih 0 k
          exact ⟨m, by simpa [scanIM, hc, hr] using hm⟩
        · cases hf : findCloseIM rest 0 with
          | some p =>
            obtain ⟨m, hm⟩ := ih p.1.length (k + 1)
            refine ⟨m + 1, ?_⟩
            simp only [scanIM, hc, if_true, hr, if_false, hf, List.map_cons,
              List.range'_succ, hm]
          | none =>
            exact ⟨0, by simp [scanIM, hc, hr, hf]⟩
      · obtain ⟨m, hm⟩ := ih 0 k
        exact ⟨m, by simpa [scanIM, hc] using hm⟩

lemma kindchar_CODE_BLOCK : ∀ c ∈ "CODE_BLOCK".data, isKindChar c = true := by decide
lemma kindchar_INLINE_CODE : ∀ c ∈ "INLINE_CODE".data, isKindChar c = true := by decide
lemma kindchar_MATH_BLOCK : ∀ c ∈ "MATH_BLOCK".data, isKindChar c = true := by decide
lemma kindchar_INLINE_MATH : ∀ c ∈ "INLINE_MATH".data, isKindChar c = true := by decide
lemma kindchar_IMAGE : ∀ c ∈ "IMAGE".data, isKindChar c = true := by decide
lemma kindchar_HTML : ∀ c ∈ "HTML".data, isKindChar c = true := by decide

lemma nodup_map_mkPh (K : Chars) (hK : ∀ c ∈ K, isKindChar c = true) (a m : Nat) :
    ((List.range' a m).map (mkPh K)).Nodup :=
  (List.nodup_range' a m).map (mkPh_injective K hK)

lemma disjoint_map_mkPh (K1 K2 : Chars)
    (h1 : ∀ c ∈ K1, isKindChar c = true) (h2 : ∀ c ∈ K2, isKindChar c = true)
    (hne : K1 ≠ K2) (xs ys : List Nat) :
    (xs.map (mkPh K1)).Disjoint (ys.map (mkPh K2)) := by
  intro a hx hy
  rcases List.mem_map.1 hx with ⟨i, _, rfl⟩
  rcases List.mem_map.1 hy with ⟨j, _, he⟩
  exact hne (mkPh_inj_on K2 K1 j i h2 h1 he).1.symm

lemma protectP1_ph (t : Chars) : ∃ a m,
    ((protectP1 t).2.1).map (fun b => b.placeholder) =
      (List.range' a m).map (mkPh "CODE_BLOCK".data) := by
  obtain ⟨m, hm⟩ := subScan_placeholders tryCodeBlock "CODE_BLOCK".data "code_block" t 0 0
  exact ⟨0, m, hm⟩

lemma protectP2_ph (t : Chars) : ∃ a m,
    ((protectP2 t).2.1).map (fun b => b.placeholder) =
      (List.range' a m).map (mkPh "INLINE_CODE".data) := by
  obtain ⟨m, hm⟩ := subScan_placeholders tryInlineCode "INLINE_CODE".data "inline_code"
    (protectP1 t).1 0 (protectP1 t).2.2
  exact ⟨_, m, hm⟩

lemma protectP3_ph (t : Chars) : ∃ a m,
    ((protectP3 t).2.1).map (fun b => b.placeholder) =
      (List.range' a m).map (mkPh "MATH_BLOCK".data) := by
  obtain ⟨m, hm⟩ := subScan_placeholders tryMathBlock "MATH_BLOCK".data "math_block"
    (protectP2 t).1 0 (protectP2 t).2.2
  exact ⟨_, m, hm⟩

lemma protectP4_ph (t : Chars) : ∃ a m,
    ((protectP4 t).2).map (fun b => b.placeholder) =
      (List.range' a m).map (mkPh "INLINE_MATH".data) := by
  obtain ⟨m, hm⟩ := scanIM_placeholders (protectP3 t).1 0
    (((protectSoFar t).filter (fun b => b.block_type = "inline_math")).length)
  exact ⟨_, m, hm⟩

lemma protectP5_ph (t : Chars) : ∃ a m,
    ((protectP5 t).2.1).map (fun b => b.placeholder) =
      (List.range' a m).map (mkPh "IMAGE".data) := by
  obtain ⟨m, hm⟩ := subScan_placeholders tryImage "IMAGE".data "image"
    (protectP4 t).1 0 (protectP3 t).2.2
  exact ⟨_, m, hm⟩

lemma protectP6_ph (t : Chars) : ∃ a m,
    ((protectP6 t).2.1).map (fun b => b.placeholder) =
      (List.range' a m).map (mkPh "HTML".data) := by
  obtain ⟨m, hm⟩ := subScan_placeholders tryHtml "HTML".data "html"
    (protectP5 t).1 0 (protectP5 t).2.2
  exact ⟨_, m, hm⟩

/-- Every span of `protect_blocks` has a placeholder of the canonical form
    for one of the six kinds. -/
lemma protect_blocks_ph_shape (t : Chars) :
    ∀ b ∈ (protect_blocks t).2, ∃ K i,
      (∀ c ∈ K, isKindChar c = true) ∧ b.placeholder = mkPh K i := by
  intro b hb
  obtain ⟨a1, m1, h1⟩ := protectP1_ph t
  obtain ⟨a2, m2, h2⟩ := protectP2_ph t
  obtain ⟨a3, m3, h3⟩ := protectP3_ph t
  obtain ⟨a4, m4, h4⟩ := protectP4_ph t
  obtain ⟨a5, m5, h5⟩ := protectP5_ph t
  obtain ⟨a6, m6, h6⟩ := protectP6_ph t
  have mem_shape : ∀ (bs : List ProtectedBlock) (K : Chars) (a m : Nat),
      bs.map (fun b => b.placeholder) = (List.range' a m).map (mkPh K) →
      b ∈ bs → ∃ i, b.placeholder = mkPh K i := by
    intro bs K a m hmap hmem
    have : b.placeholder ∈ bs.map (fun b => b.placeholder) :=
      List.mem_map.2 ⟨b, hmem, rfl⟩
    rw [hmap] at this
    rcases List.mem_map.1 this with ⟨i, _, hi⟩
    exact ⟨i, hi.symm⟩
  simp only [protect_blocks, protectSoFar, List.append_assoc, List.mem_append] at hb
  rcases hb with h | h | h | h | h | h
  · obtain ⟨i, hi⟩ := mem_shape _ _ _ _ h1 h
    exact ⟨_, i, kindchar_CODE_BLOCK, hi⟩
  · obtain ⟨i, hi⟩ := mem_shape _ _ _ _ h2 h
    exact ⟨_, i, kindchar_INLINE_CODE, hi⟩
  · obtain ⟨i, hi⟩ := mem_shape _ _ _ _ h3 h
    exact ⟨_, i, kindchar_MATH_BLOCK, hi⟩
  · obtain ⟨i, hi⟩ := mem_shape _ _ _ _ h4 h
    exact ⟨_, i, kindchar_INLINE_MATH, hi⟩
  · obtain ⟨i, hi⟩ := mem_shape _ _ _ _ h5 h
    exact ⟨_, i, kindchar_IMAGE, hi⟩
  · obtain ⟨i, hi⟩ := mem_shape _ _ _ _ h6 h
    exact ⟨_, i, kindchar_HTML, hi⟩

/-- C2: for every input text, the spans produced by a single protect_blocks
    call carry pairwise distinct placeholder tokens: no two spans in the
    returned list (across all six kinds, including inline math with its own
    per-kind counter) share the same placeholder string. -/
theorem c2_token_uniqueness (t : Chars) :
    (((protect_blocks t).2).map (fun b => b.placeholder)).Nodup := by
  obtain ⟨a1, m1, h1⟩ := protectP1_ph t
  obtain ⟨a2, m2, h2⟩ := protectP2_ph t
  obtain ⟨a3, m3, h3⟩ := protectP3_ph t
  obtain ⟨a4, m4, h4⟩ := protectP4_ph t
  obtain ⟨a5, m5, h5⟩ := protectP5_ph t
  obtain ⟨a6, m6, h6⟩ := protectP6_ph t
  simp only [protect_blocks, protectSoFar, List.append_assoc, List.map_append,
    h1, h2, h3, h4, h5, h6]
  simp only [List.nodup_append, List.disjoint_append_right]
  repeat' apply And.intro
  all_goals first
    | exact nodup_map_mkPh _ (by decide) _ _
    | exact disjoint_map_mkPh _ _ (by decide) (by decide) (by decide) _ _

/-- C1 (evaluation at the failing input): protecting the text of one inline
    formula and restoring the unmodified protected text does not give the
    input back — the raw-markup pass has replaced the front of the inline-math
    placeholder, so restoration re-creates the placeholder instead of the
    formula.  The round-trip claim fails on this input. -/
theorem c1_roundtrip_failure :
    restore_blocks (protect_blocks "$x$".data).1 (protect_blocks "$x$".data).2 =
      "<<<INLINE_MATH_0000>>>".data ∧
    restore_blocks (protect_blocks "$x$".data).1 (protect_blocks "$x$".data).2 ≠
      "$x$".data := by decide

/-- C3: on the input text of the spec, the brace-depth-aware inline-math
    scanner protects exactly one inline-math span whose original content is
    the whole formula including the escaped braces, not a truncated match
    ending at the first closing brace. -/
theorem c3_brace_depth_scan :
    protect_inline_math_formulas
        "The loss is $f(\\\x7bx_1,x_2\x5c\x7d)$ converges.".data [] =
      ("The loss is <<<INLINE_MATH_0000>>> converges.".data,
       [⟨"<<<INLINE_MATH_0000>>>".data, "$f(\\\x7bx_1,x_2\x5c\x7d)$".data,
        "inline_math"⟩]) := by decide

/-- C5 (counterexample): chunking the empty document does not yield zero
    chunks. -/
theorem c5_counterexample : chunkLines [] ≠ [] := by decide

/-- C5 (amended): the line-accumulating chunking step applied to the empty
    string yields exactly one chunk, the empty chunk, for the source's size
    limit and indeed for every size limit. -/
theorem c5_amended_empty_chunk :
    chunkLines [] = [[]] ∧ ∀ limit, chunkLoop limit (splitNl []) [] 0 = [[]] := by
  refine ⟨by decide, ?_⟩
  intro limit
  simp [chunkLines, splitNl, chunkLoop, joinNl]

/- Lemmas about splitting on newlines, joining with newlines, and the chunk
   loop. -/

lemma splitNl_ne_nil : ∀ t, splitNl t ≠ [] := by
  intro t
  cases t with
  | nil => simp [splitNl]
  | cons c rest =>
    simp only [splitNl]
    split
    · simp
    · cases h : splitNl rest <;> simp

lemma joinNl_cons (x : Chars) (xs : List Chars) (h : xs ≠ []) :
    joinNl (x :: xs) = x ++ '\n' :: joinNl xs := by
  cases xs with
  | nil => exact absurd rfl h
  | cons y ys => rfl

lemma joinNl_splitNl : ∀ t, joinNl (splitNl t) = t := by
  intro t
  induction t with
  | nil => rfl
  | cons c rest ih =>
    simp only [splitNl]
    by_cases hc : c = '\n'
    · rw [if_pos hc, joinNl_cons _ _ (splitNl_ne_nil rest), ih, hc]
      rfl
    · rw [if_neg hc]
      cases h : splitNl rest with
      | nil => exact absurd h (splitNl_ne_nil rest)
      | cons p ps =>
        rw [h] at ih
        cases ps with
        | nil =>
          simp only [joinNl] at ih ⊢
          rw [ih]
        | cons q qs =>
          rw [joinNl_cons _ _ (by simp)] at ih ⊢
          simp only [List.cons_append, ih]

lemma splitNl_append_nl : ∀ a b, splitNl (a ++ '\n' :: b) = splitNl a ++ splitNl b := by
  intro a b
  induction a with
  | nil => simp [splitNl]
  | cons c a' ih =>
    by_cases hc : c = '\n'
    · rw [List.cons_append]
      simp only [splitNl, if_pos hc]
      rw [ih]
      rfl
    · rw [List.cons_append]
      simp only [splitNl, if_neg hc]
      rw [ih]
      cases h : splitNl a' with
      | nil => exact absurd h (splitNl_ne_nil a')
      | cons p ps => simp

lemma splitNl_joinNl_distrib : ∀ cs : List Chars, cs ≠ [] →
    splitNl (joinNl cs) = (cs.map splitNl).flatten := by
  intro cs
  induction cs with
  | nil => intro h; exact absurd rfl h
  | cons x xs ih =>
    intro _
    cases xs with
    | nil => simp [joinNl]
    | cons y ys =>
      rw [joinNl_cons _ _ (by simp), splitNl_append_nl, ih (by simp)]
      simp

lemma joinNl_append (l1 l2 : List Chars) (h1 : l1 ≠ []) (h2 : l2 ≠ []) :
    joinNl (l1 ++ l2) = joinNl l1 ++ '\n' :: joinNl l2 := by
  induction l1 with
  | nil => exact absurd rfl h1
  | cons x xs ih =>
    cases xs with
    | nil =>
      cases l2 with
      | nil => exact absurd rfl h2
      | cons y ys => simp [joinNl_cons, joinNl]
    | cons z zs =>
      rw [List.cons_append, joinNl_cons _ _ (by simp),
        joinNl_cons _ _ (by simp), ih (by simp)]
      simp

lemma chunkLoop_ne_nil (limit : Nat) :
    ∀ lines cur size, cur ≠ [] → chunkLoop limit lines cur size ≠ [] := by
  intro lines
  induction lines with
  | nil => intro cur size h; simp [chunkLoop, h]
  | cons line rest ih =>
    intro cur size h
    simp only [chunkLoop]
    split
    · simp
    · exact ih (cur ++ [line]) _ (by simp)

lemma joinNl_chunkLoop (limit : Nat) :
    ∀ lines cur size, joinNl (chunkLoop limit lines cur size) = joinNl (cur ++ lines) := by
  intro lines
  induction lines with
  | nil =>
    intro cur size
    simp only [chunkLoop, List.append_nil]
    split
    · simp_all [joinNl]
    · rfl
  | cons line rest ih =>
    intro cur size
    simp only [chunkLoop]
    split
    · rename_i hcond
      rw [joinNl_cons _ _ (chunkLoop_ne_nil limit rest [line] line.length (by simp)),
        ih [line] line.length, List.singleton_append,
        joinNl_append cur (line :: rest) hcond.2 (by simp)]
    · rw [ih (cur ++ [line]) _]
      simp

lemma joinNl_chunkLines (t : Chars) : joinNl (chunkLines t) = t := by
  rw [chunkLines, joinNl_chunkLoop, List.nil_append, joinNl_splitNl]

lemma chunkLines_ne_nil (t : Chars) : chunkLines t ≠ [] := by
  rw [chunkLines]
  cases h : splitNl t with
  | nil => exact absurd h (splitNl_ne_nil t)
  | cons l ls =>
    simp only [chunkLoop]
    split
    · rename_i hcond
      exact absurd hcond.2 (by simp)
    · exact chunkLoop_ne_nil 6000 ls [l] _ (by simp)

/-- C10: the chunking loop partitions the protected text line-exactly:
    joining the chunks with single newlines reconstructs the text character
    for character, and concatenating the chunks' line lists gives exactly the
    text's line list (every line in exactly one chunk, in order). -/
theorem c10_chunk_join_identity (t : Chars) :
    joinNl (chunkLines t) = t ∧
    ((chunkLines t).map splitNl).flatten = splitNl t := by
  refine ⟨joinNl_chunkLines t, ?_⟩
  rw [← splitNl_joinNl_distrib (chunkLines t) (chunkLines_ne_nil t), joinNl_chunkLines]

/- Lemmas for the no-split invariant: a pattern free of newlines occurs in a
   newline-join exactly as often as in the joined pieces together. -/

lemma isPrefB_append_nl (p : Chars) (hp : '\n' ∉ p) :
    ∀ x y, isPrefB p (x ++ '\n' :: y) = isPrefB p x := by
  induction p with
  | nil => intro x y; cases x <;> rfl
  | cons a as ih =>
    intro x y
    have ha : a ≠ '\n' := fun h => hp (h ▸ List.mem_cons_self a as)
    cases x with
    | nil =>
      simp only [List.nil_append, isPrefB]
      simp [ha]
    | cons c x' =>
      simp only [List.cons_append, isPrefB, List.append_eq]
      rw [ih (fun h => hp (List.mem_cons_of_mem a h)) x' y]

lemma countPos_append_nl (p : Chars) (hp1 : p ≠ []) (hp2 : '\n' ∉ p) :
    ∀ x y, countPos p (x ++ '\n' :: y) = countPos p x + countPos p y := by
  intro x y
  induction x with
  | nil =>
    simp only [List.nil_append, countPos]
    cases p with
    | nil => exact absurd rfl hp1
    | cons a as =>
      have ha : a ≠ '\n' := fun h => hp2 (h ▸ List.mem_cons_self a as)
      simp [isPrefB, ha]
  | cons c x' ih =>
    simp only [List.cons_append, countPos, List.append_eq]
    have hpre := isPrefB_append_nl p hp2 (c :: x') y
    rw [List.cons_append] at hpre
    simp only [hpre, ih]
    omega

lemma countPos_joinNl (p : Chars) (hp1 : p ≠ []) (hp2 : '\n' ∉ p) :
    ∀ cs : List Chars, countPos p (joinNl cs) = (cs.map (countPos p)).sum := by
  intro cs
  induction cs with
  | nil => simp [joinNl, countPos]
  | cons x xs ih =>
    cases xs with
    | nil => simp [joinNl]
    | cons y ys =>
      rw [joinNl_cons _ _ (by simp), countPos_append_nl p hp1 hp2, ih]
      simp

/-- C6: for every input text and every span of its protection, the span's
    placeholder occurs in the protected text exactly as often as in all the
    chunks of the chunking loop together — placeholders contain no newline
    and chunk boundaries are newlines, so no placeholder occurrence is split
    across two chunks. -/
theorem c6_no_token_split (t : Chars) (b : ProtectedBlock)
    (hb : b ∈ (protect_blocks t).2) :
    countPos b.placeholder (protect_blocks t).1 =
      ((chunkLines (protect_blocks t).1).map (countPos b.placeholder)).sum := by
  obtain ⟨K, i, hK, hph⟩ := protect_blocks_ph_shape t b hb
  have h1 : b.placeholder ≠ [] := by rw [hph]; exact mkPh_ne_nil K i
  have h2 : '\n' ∉ b.placeholder := by rw [hph]; exact newline_not_mem_mkPh K i hK
  conv_lhs => rw [← joinNl_chunkLines ((protect_blocks t).1)]
  exact countPos_joinNl _ h1 h2 _

set_option maxHeartbeats 2000000 in
/-- C6 witness: a concrete protected span of a concrete text, with the count
    identity evaluated. -/
theorem c6_no_token_split_witness :
    (⟨"<<<INLINE_MATH_0000>>>".data, "$x$".data, "inline_math"⟩ : ProtectedBlock) ∈
      (protect_blocks "$x$".data).2 ∧
    countPos "<<<INLINE_MATH_0000>>>".data (protect_blocks "$x$".data).1 =
      ((chunkLines (protect_blocks "$x$".data).1).map
        (countPos "<<<INLINE_MATH_0000>>>".data)).sum := by
  exact ⟨by decide,
    c6_no_token_split "$x$".data
      ⟨"<<<INLINE_MATH_0000>>>".data, "$x$".data, "inline_math"⟩ (by decide)⟩

/-- C7: for every protected document strictly under the 8000-character
    threshold, the pipeline skips chunking and makes exactly one rewrite
    call, with the whole protected text and an empty context. -/
theorem c7_small_document_shortcut (rw : Chars → Chars → Chars) (t : Chars)
    (h : (protect_blocks t).1.length < 8000) :
    (translate_large_document rw t).2 = [((protect_blocks t).1, [])] := by
  simp only [translate_large_document]
  rw [if_pos h]

/-- C7 witness: a concrete two-character document with the identity rewrite
    service makes one call carrying the protected text and no context. -/
theorem c7_small_document_shortcut_witness :
    (protect_blocks "hi".data).1.length < 8000 ∧
    (translate_large_document (fun a _ => a) "hi".data).2 = [("hi".data, [])] :=
  ⟨by decide, c7_small_document_shortcut (fun a _ => a) "hi".data (by decide)⟩

/-- Scanner-level flush: when an opening dollar (not the start of a `$$`
    pair) has no balanced close before the end of the text, the scanner keeps
    everything from the opening dollar to the end verbatim and records
    nothing. -/
lemma scanIM_flush_core :
    ∀ pre suf k, '$' ∉ pre → suf.head? ≠ some '$' → findCloseIM suf 0 = none →
      scanIM (pre ++ '$' :: suf) 0 k = (pre ++ '$' :: suf, []) := by
  intro pre
  induction pre with
  | nil =>
    intro suf k _ h2 h3
    simp only [List.nil_append, scanIM, if_pos rfl, if_neg h2, h3]
    simp
  | cons c pre' ih =>
    intro suf k h1 h2 h3
    have hc : c ≠ '$' := fun h => h1 (h ▸ List.mem_cons_self c pre')
    rw [List.cons_append]
    simp only [scanIM, if_neg hc]
    rw [ih suf k (fun h => h1 (List.mem_cons_of_mem c h)) h2 h3]

/-- C4: for every text consisting of a dollar-free prefix, an opening
    inline-math dollar that does not start a `$$` pair, and a suffix in which
    no closing dollar at brace depth zero occurs, protect_inline_math_formulas
    returns the text unchanged (the opening dollar and everything after it is
    left unprotected, not dropped) and records no inline-math span for it. -/
theorem c4_unmatched_dollar_kept (pre suf : Chars) (bs : List ProtectedBlock)
    (h1 : '$' ∉ pre) (h2 : suf.head? ≠ some '$') (h3 : findCloseIM suf 0 = none) :
    protect_inline_math_formulas (pre ++ '$' :: suf) bs = (pre ++ '$' :: suf, bs) := by
  simp only [protect_inline_math_formulas]
  rw [scanIM_flush_core pre suf _ h1 h2 h3]
  simp

/-- Helper for the validator: the result is always an ok value, and whenever
    the placeholder counts differ the result is flagged invalid with at least
    one issue. -/
lemma validate_ok (o t : Chars) :
    ∃ r, validate_translation_completeness o t = .ok r ∧
      (countPh o ≠ countPh t → r.is_valid = false ∧ r.issues ≠ []) := by
  obtain ⟨q, hq⟩ : ∃ q,
      (if 0 < o.length
       then pyDiv (t.length : Rat) (o.length : Rat)
       else Except.ok 0) = Except.ok q := by
    split
    · rename_i h
      refine ⟨(t.length : Rat) / (o.length : Rat), ?_⟩
      simp only [pyDiv]
      rw [if_neg]
      simp only [ne_eq, Nat.cast_eq_zero]
      omega
    · exact ⟨0, rfl⟩
  simp only [validate_translation_completeness, hq]
  split
  · refine ⟨_, rfl, fun hne => ?_⟩
    rw [if_pos hne]
    constructor
    · rfl
    · split_ifs <;> simp
  · refine ⟨_, rfl, fun hne => ?_⟩
    rw [if_pos hne]
    constructor
    · split_ifs <;> rfl
    · split_ifs <;> simp

/-- C9: the completeness validator returns a report for all inputs without
    raising (in particular no division by zero on an empty original), and
    whenever the original holds three placeholder tokens and the rewritten
    text holds none, the report is flagged invalid with a nonempty issue
    list. -/
theorem c9_validator_non_blocking (original translated : Chars) :
    (∃ r, validate_translation_completeness original translated = .ok r) ∧
    (countPh original = 3 → countPh translated = 0 →
      ∃ r, validate_translation_completeness original translated = .ok r ∧
        r.is_valid = false ∧ r.issues ≠ []) := by
  obtain ⟨r, hr, himp⟩ := validate_ok original translated
  refine ⟨⟨r, hr⟩, fun h3 h0 => ⟨r, hr, himp ?_⟩⟩
  rw [h3, h0]
  omega

/-- C9 witness: a concrete original with three placeholders and a rewritten
    text with none, and the empty-original case raising nothing. -/
theorem c9_validator_non_blocking_witness :
    countPh "<<<A_0001>>> <<<B_0002>>> <<<C_0003>>>".data = 3 ∧
    countPh "hello".data = 0 ∧
    (∃ r, validate_translation_completeness [] [] = .ok r) ∧
    (∃ r, validate_translation_completeness
        "<<<A_0001>>> <<<B_0002>>> <<<C_0003>>>".data "hello".data = .ok r ∧
      r.is_valid = false ∧ r.issues ≠ []) :=
  ⟨by decide, by decide,
   (c9_validator_non_blocking [] []).1,
   (c9_validator_non_blocking "<<<A_0001>>> <<<B_0002>>> <<<C_0003>>>".data
      "hello".data).2 (by decide) (by decide)⟩

/-- C4 witness: a concrete unmatched opening dollar followed by an unclosed
    brace is left verbatim with no span. -/
theorem c4_unmatched_dollar_kept_witness :
    '$' ∉ "ab".data ∧ "c\x7bd".data.head? ≠ some '$' ∧
    findCloseIM "c\x7bd".data 0 = none ∧
    protect_inline_math_formulas ("ab".data ++ '$' :: "c\x7bd".data) [] =
      ("ab".data ++ '$' :: "c\x7bd".data, []) :=
  ⟨by decide, by decide, by decide,
   c4_unmatched_dollar_kept "ab".data "c\x7bd".data [] (by decide) (by decide) (by decide)⟩




/- Lemmas for the repair pass `fix_broken_placeholders`. -/

/-- Repair-pattern match at a malformed inline-math token of index 5: the
    match covers exactly the twenty characters of the token (its single
    trailing greater-than included, the suffix not starting with another),
    and the replacement is the looked-up original, or the matched text itself
    when no block has the rebuilt placeholder. -/
lemma tryBroken_im5 (bs : List ProtectedBlock) (suf : Chars) (hs : suf.head? ≠ some '>') :
    tryBroken bs ("<<<INLINE_MATH_0005>".data ++ suf) =
      some (20, match lookupBlock bs "<<<INLINE_MATH_0005>>>".data with
                | some orig => orig
                | none => "<<<INLINE_MATH_0005>".data) := by
  have h0 : ("<<<INLINE_MATH_0005>".data : Chars) ++ suf =
      '<' :: '<' :: '<' :: ("INLINE_MATH_".data ++ '0' :: ("005>".data ++ suf)) := rfl
  rw [h0]
  simp only [tryBroken]
  rw [takeWhile_app_stop "INLINE_MATH_".data '0' ("005>".data ++ suf) (by decide) (by decide)]
  split
  case isFalse h => exact absurd (by decide) h
  have hdrop : List.drop ("INLINE_MATH_".data : Chars).length
      (['I','N','L','I','N','E','_','M','A','T','H','_'] ++ '0' :: (['0','0','5','>'] ++ suf)) =
      '0' :: (['0','0','5','>'] ++ suf) := rfl
  rw [hdrop]
  have h1 : ('0' :: ((['0','0','5','>'] : Chars) ++ suf)) = ['0','0','0','5'] ++ '>' :: suf := rfl
  rw [h1]
  rw [takeWhile_app_stop ['0','0','0','5'] '>' suf (by decide) (by decide)]
  have h2 : List.take 4 (['0','0','0','5'] : Chars) = ['0','0','0','5'] := rfl
  rw [h2]
  split
  case isTrue h => exact absurd h (by decide)
  have h3 : List.drop (['0','0','0','5'] : Chars).length ((['0','0','0','5'] : Chars) ++ '>' :: suf) =
      '>' :: suf := rfl
  rw [h3]
  have h4 : List.takeWhile (fun c => decide (c = '>')) ('>' :: suf) =
      '>' :: List.takeWhile (fun c => decide (c = '>')) suf := by
    simp [List.takeWhile_cons]
  rw [h4]
  have h5 : List.takeWhile (fun c => decide (c = '>')) suf = [] := by
    cases suf with
    | nil => rfl
    | cons a as =>
      have ha : a ≠ '>' := by
        intro h
        exact hs (by simp [h])
      simp [List.takeWhile_cons, ha]
  rw [h5]
  have h6 : List.take 2 (('>' : Char) :: []) = ['>'] := rfl
  rw [h6]
  have h7 : ("INLINE_MATH_".data : Chars).dropLast = "INLINE_MATH".data := by decide
  have h8 : parseNat ['0','0','0','5'] = 5 := by decide
  rw [h7, h8]
  have h9 : mkPh "INLINE_MATH".data 5 = "<<<INLINE_MATH_0005>>>".data := by decide
  rw [h9]
  have h10 : ('<' :: '<' :: '<' ::
      (("INLINE_MATH_".data : Chars) ++ (['0','0','0','5'] ++ ['>']))).length = 20 := by decide
  have h11 : ('<' :: '<' :: '<' ::
      (("INLINE_MATH_".data : Chars) ++ (['0','0','0','5'] ++ ['>']))) =
      "<<<INLINE_MATH_0005>".data := by decide
  split <;> rename_i heq <;> rw [heq]
  · simp
  · decide

/-- The repair pattern can only match at a less-than sign. -/
lemma tryBroken_none (bs : List ProtectedBlock) (c : Char) (rest : Chars) (hc : c ≠ '<') :
    tryBroken bs (c :: rest) = none := by
  unfold tryBroken
  split
  · rename_i heq
    injection heq with h1 _
    exact absurd h1 hc
  · rfl

/-- Text without a less-than sign passes through the repair scan unchanged. -/
lemma fixScan_clean (bs : List ProtectedBlock) :
    ∀ s, (∀ c ∈ s, c ≠ '<') → fixScan bs s 0 = s := by
  intro s
  induction s with
  | nil => intro _; rfl
  | cons c rest ih =>
    intro h
    simp only [fixScan, tryBroken_none bs c rest (h c (List.mem_cons_self c rest))]
    rw [ih (fun x hx => h x (List.mem_cons_of_mem c hx))]

/-- A less-than-free prefix is copied verbatim by the repair scan. -/
lemma fixScan_front (bs : List ProtectedBlock) :
    ∀ pre rest, (∀ c ∈ pre, c ≠ '<') →
      fixScan bs (pre ++ rest) 0 = pre ++ fixScan bs rest 0 := by
  intro pre
  induction pre with
  | nil => intro rest _; rfl
  | cons c pre' ih =>
    intro rest h
    rw [List.cons_append]
    simp only [fixScan, tryBroken_none bs c _ (h c (List.mem_cons_self c pre'))]
    rw [ih rest (fun x hx => h x (List.mem_cons_of_mem c hx))]
    rfl

/-- Skipping exactly the matched characters resumes the scan at the rest. -/
lemma fixScan_skip (bs : List ProtectedBlock) :
    ∀ xs suf, fixScan bs (xs ++ suf) xs.length = fixScan bs suf 0 := by
  intro xs
  induction xs with
  | nil => intro suf; rfl
  | cons c xs' ih =>
    intro suf
    rw [List.cons_append]
    simp only [List.length_cons, fixScan]
    exact ih suf

/-- The repair scan at a malformed inline-math token replaces it by the
    looked-up original, or keeps it verbatim when no block matches. -/
lemma fixScan_at_im5 (bs : List ProtectedBlock) (suf : Chars)
    (hsuf : ∀ c ∈ suf, c ≠ '<') (hs : suf.head? ≠ some '>') :
    fixScan bs ("<<<INLINE_MATH_0005>".data ++ suf) 0 =
      (match lookupBlock bs "<<<INLINE_MATH_0005>>>".data with
       | some orig => orig
       | none => "<<<INLINE_MATH_0005>".data) ++ suf := by
  have h0 : ("<<<INLINE_MATH_0005>".data : Chars) ++ suf =
      '<' :: ("<<INLINE_MATH_0005>".data ++ suf) := rfl
  rw [h0]
  simp only [fixScan]
  have harg : ('<' : Char) :: ("<<INLINE_MATH_0005>".data ++ suf) =
      "<<<INLINE_MATH_0005>".data ++ suf := rfl
  rw [harg, tryBroken_im5 bs suf hs]
  show (match lookupBlock bs "<<<INLINE_MATH_0005>>>".data with
        | some orig => orig
        | none => "<<<INLINE_MATH_0005>".data) ++
      fixScan bs ("<<INLINE_MATH_0005>".data ++ suf) (20 - 1) =
      (match lookupBlock bs "<<<INLINE_MATH_0005>>>".data with
        | some orig => orig
        | none => "<<<INLINE_MATH_0005>".data) ++ suf
  have hskip : fixScan bs ("<<INLINE_MATH_0005>".data ++ suf) (20 - 1) = fixScan bs suf 0 :=
    fixScan_skip bs "<<INLINE_MATH_0005>".data suf
  rw [hskip, fixScan_clean bs suf hsuf]

/-- C8: in any text carrying the malformed token of inline-math index 5
    between a prefix and a suffix free of further pattern starts, the repair
    pass substitutes the original content of the span whose placeholder
    rebuilds from the recovered kind and index, at the token's position; and
    when no span in the list matches, the malformed token is left unchanged
    in the output. -/
theorem c8_repair_recovers (bs : List ProtectedBlock) (pre suf : Chars)
    (hpre : ∀ c ∈ pre, c ≠ '<') (hsuf : ∀ c ∈ suf, c ≠ '<')
    (hs : suf.head? ≠ some '>') :
    (∀ orig, lookupBlock bs "<<<INLINE_MATH_0005>>>".data = some orig →
      fix_broken_placeholders (pre ++ "<<<INLINE_MATH_0005>".data ++ suf) bs =
        pre ++ orig ++ suf) ∧
    (lookupBlock bs "<<<INLINE_MATH_0005>>>".data = none →
      fix_broken_placeholders (pre ++ "<<<INLINE_MATH_0005>".data ++ suf) bs =
        pre ++ "<<<INLINE_MATH_0005>".data ++ suf) := by
  have key := fixScan_at_im5 bs suf hsuf hs
  constructor
  · intro orig ho
    rw [fix_broken_placeholders, List.append_assoc, fixScan_front bs pre _ hpre, key, ho]
    simp
  · intro ho
    rw [fix_broken_placeholders, List.append_assoc, fixScan_front bs pre _ hpre, key, ho]

/-- C8 witness: one concrete repair with the span present, and the same text
    left unchanged with an empty span list. -/
theorem c8_repair_recovers_witness :
    fix_broken_placeholders ("a ".data ++ "<<<INLINE_MATH_0005>".data ++ " b".data)
        [⟨"<<<INLINE_MATH_0005>>>".data, "$y$".data, "inline_math"⟩] =
      "a ".data ++ "$y$".data ++ " b".data ∧
    fix_broken_placeholders ("a ".data ++ "<<<INLINE_MATH_0005>".data ++ " b".data) [] =
      "a ".data ++ "<<<INLINE_MATH_0005>".data ++ " b".data :=
  ⟨(c8_repair_recovers [⟨"<<<INLINE_MATH_0005>>>".data, "$y$".data, "inline_math"⟩]
      "a ".data " b".data (by decide) (by decide) (by decide)).1 "$y$".data (by decide),
   (c8_repair_recovers [] "a ".data " b".data (by decide) (by decide) (by decide)).2
     (by decide)⟩
